import Mathlib

/-!
Verification of the PERMANOVA module (`permanova.py`): a shallow embedding of
the distance-matrix sum-of-squares kernel, the one-way and two-way pseudo-F
calculators, and the permutation-test drivers, over exact rational arithmetic.
Machine floats of the source are modelled by `ℚ`; Python runtime errors
(`AssertionError`, `ZeroDivisionError`, `IndexError`) are modelled with
`Except String`; the random shuffles drawn by `random.shuffle` are passed in
explicitly as position tables, one per trial.
-/

namespace Permanova

/-- Entry `dm[i][j]` of a matrix given as a list of rows (0 outside range;
every use in a theorem is guarded so that both indices are in range). -/
def ent (dm : List (List ℚ)) (i j : ℕ) : ℚ :=
  (dm.getD i []).getD j 0

/-- Sum of `dm[i][j]**2` over the strict upper triangle (`i < j < len(dm)`)
restricted to the pairs accepted by `q`: the filtering-and-summing pattern of
`f_oneway`'s `sst`/`ssw` and `f_twoway`'s `ssr`/`sswa`/`sswb` generators,
which all iterate `product(xrange(len(dm)), xrange(1,len(dm)))` filtered by
`i < j` and a predicate on the levels. -/
def sumUT (dm : List (List ℚ)) (q : ℕ → ℕ → Bool) : ℚ :=
  ∑ i ∈ Finset.range dm.length, ∑ j ∈ Finset.Ico (i + 1) dm.length,
    if q i j then ent dm i j ^ 2 else 0

/-- The two-way `sst` source expression
`stats.ss(chain(*(r[i+1:] for i,r in enumerate(dm))))`: sum of squares of
each row's tail past the diagonal, following the actual row lengths. -/
def ssTotalRows (dm : List (List ℚ)) : ℚ :=
  ∑ i ∈ Finset.range dm.length, ∑ j ∈ Finset.Ico (i + 1) (dm.getD i []).length,
    ent dm i j ^ 2

/-- The test `np.asarray(dm).shape == (bign, bign)` for a list-of-lists
input: the shape is `(bign, bign)` exactly when there are `bign > 0` rows,
all of length `bign` (numpy gives an empty list shape `(0,)`, never
`(0, 0)`, and a ragged list shape `(len,)`). -/
def shapeOK (dm : List (List ℚ)) (bign : ℕ) : Bool :=
  bign != 0 && dm.length == bign && dm.all fun row => row.length == bign

/-- `levels[i] == levels[j]` (total lookup; in every guarded use both indices
are in range). -/
def lvlEq {α : Type} [DecidableEq α] (levels : List α) (i j : ℕ) : Bool :=
  decide (levels[i]? = levels[j]?)

/-- `levels[i][0] == levels[j][0]`. -/
def fstEq {α β : Type} [DecidableEq α] (levels : List (α × β)) (i j : ℕ) : Bool :=
  decide ((levels[i]?).map Prod.fst = (levels[j]?).map Prod.fst)

/-- `levels[i][1] == levels[j][1]`. -/
def sndEq {α β : Type} [DecidableEq β] (levels : List (α × β)) (i j : ℕ) : Bool :=
  decide ((levels[i]?).map Prod.snd = (levels[j]?).map Prod.snd)

/-- Body of `f_oneway` past its assert: `a = len(set(levels))`,
`n = bign/a` (Python 2 integer division), `sst`, `ssw`, `ssa` and the F
ratio.  `a-1` and `bign-a` are Python int subtractions, hence exact
subtractions after casting to `ℚ`. -/
def fOnewayCore {α : Type} [DecidableEq α] (dm : List (List ℚ)) (levels : List α) : ℚ :=
  let bign := levels.length
  let a := levels.dedup.length
  let n := bign / a
  let sst := sumUT dm (fun _ _ => true) / (bign : ℚ)
  let ssw := sumUT dm (lvlEq levels) / (n : ℚ)
  let ssa := sst - ssw
  (ssa / ((a : ℚ) - 1)) / (ssw / ((bign : ℚ) - (a : ℚ)))

/-- `f_oneway`: first computes `n = bign/a`, which raises
`ZeroDivisionError` when `levels` is empty (`a = 0`); then asserts
`dm.shape == (bign, bign)`; then computes the F statistic.  One more raise
is possible in the final ratio `(ssa/float(a-1))/(ssw/float(bign-a))`:
`np.sum` of an empty generator is the builtin `sum`, i.e. the Python int
`0`, so when no pair shares a label (`a = bign`, all labels distinct) `ssw`
is the plain Python float `0.0` and `ssw/float(bign-a) = 0.0/0.0` raises
`ZeroDivisionError` (for `bign = 1` the numerator `ssa/float(a-1)` raises
the same way first).  When some pair shares a label, `ssw` is an
`np.float64` and a zero divisor yields inf/nan instead of raising; those
non-finite float outcomes are collapsed to the `ℚ` convention `x/0 = 0`. -/
def f_oneway {α : Type} [DecidableEq α] (dm : List (List ℚ)) (levels : List α) :
    Except String ℚ :=
  if levels.dedup.length = 0 then .error "ZeroDivisionError"
  else if shapeOK dm levels.length then
    if levels.dedup.length = levels.length then .error "ZeroDivisionError"
    else .ok (fOnewayCore dm levels)
  else .error "AssertionError"

/-- `a = len(set([l[0] for l in levels]))` of `f_twoway`. -/
def aCount {α β : Type} [DecidableEq α] (levels : List (α × β)) : ℕ :=
  (levels.map Prod.fst).dedup.length

/-- `b = len(set([l[1] for l in levels]))` of `f_twoway`. -/
def bCount {α β : Type} [DecidableEq β] (levels : List (α × β)) : ℕ :=
  (levels.map Prod.snd).dedup.length

/-- `n = bign/float(a*b)` of `f_twoway`: true (rational) division. -/
def cellN {α β : Type} [DecidableEq α] [DecidableEq β] (levels : List (α × β)) : ℚ :=
  (levels.length : ℚ) / ((aCount levels * bCount levels : ℕ) : ℚ)

/-- `sst` of `f_twoway`. -/
def sstTW {α β : Type} (dm : List (List ℚ)) (levels : List (α × β)) : ℚ :=
  ssTotalRows dm / (levels.length : ℚ)

/-- `ssr` of `f_twoway`: pairs at the same level of both factors. -/
def ssrTW {α β : Type} [DecidableEq α] [DecidableEq β]
    (dm : List (List ℚ)) (levels : List (α × β)) : ℚ :=
  sumUT dm (lvlEq levels) / cellN levels

/-- `sswa` of `f_twoway`: pairs at the same level of factor A. -/
def sswaTW {α β : Type} [DecidableEq α] [DecidableEq β]
    (dm : List (List ℚ)) (levels : List (α × β)) : ℚ :=
  sumUT dm (fstEq levels) / ((bCount levels : ℚ) * cellN levels)

/-- `sswb` of `f_twoway`: pairs at the same level of factor B. -/
def sswbTW {α β : Type} [DecidableEq α] [DecidableEq β]
    (dm : List (List ℚ)) (levels : List (α × β)) : ℚ :=
  sumUT dm (sndEq levels) / ((aCount levels : ℚ) * cellN levels)

/-- `ssa = sst - sswa` of `f_twoway`. -/
def ssaTW {α β : Type} [DecidableEq α] [DecidableEq β]
    (dm : List (List ℚ)) (levels : List (α × β)) : ℚ :=
  sstTW dm levels - sswaTW dm levels

/-- `ssb = sst - sswb` of `f_twoway`. -/
def ssbTW {α β : Type} [DecidableEq α] [DecidableEq β]
    (dm : List (List ℚ)) (levels : List (α × β)) : ℚ :=
  sstTW dm levels - sswbTW dm levels

/-- `ssab = sst - ssa - ssb - ssr` of `f_twoway`. -/
def ssabTW {α β : Type} [DecidableEq α] [DecidableEq β]
    (dm : List (List ℚ)) (levels : List (α × β)) : ℚ :=
  sstTW dm levels - ssaTW dm levels - ssbTW dm levels - ssrTW dm levels

/-- Body of `f_twoway`: the triple `(f_interaction, f_a, f_b)`. -/
def fTwowayCore {α β : Type} [DecidableEq α] [DecidableEq β]
    (dm : List (List ℚ)) (levels : List (α × β)) : ℚ × ℚ × ℚ :=
  let a := aCount levels
  let b := bCount levels
  let denom := ssrTW dm levels / ((levels.length : ℚ) - ((a * b : ℕ) : ℚ))
  ((ssabTW dm levels / (((a : ℚ) - 1) * ((b : ℚ) - 1))) / denom,
   (ssaTW dm levels / ((a : ℚ) - 1)) / denom,
   (ssbTW dm levels / ((b : ℚ) - 1)) / denom)

/-- The `sst` chain `(r[i+1:] for i,r in enumerate(dm))` yields no element,
so `stats.ss` of it is the Python int `0` and `sst` a plain Python float. -/
def sstEmptyB (dm : List (List ℚ)) : Bool :=
  decide (∀ i < dm.length, (dm.getD i []).length ≤ i + 1)

/-- No pair `i < j < len(dm)` satisfies `q`, so the corresponding `np.sum`
generator is empty, the sum is the Python int `0` and the quotient a plain
Python float `0.0` rather than an `np.float64`. -/
def noPairB (dm : List (List ℚ)) (q : ℕ → ℕ → Bool) : Bool :=
  decide (∀ i < dm.length, ∀ j < dm.length, i < j → q i j = false)

/-- `f_twoway` performs no shape assertion.  Its error paths, in source
order: `n = bign/float(a*b)` raises `ZeroDivisionError` when `levels` is
empty; the `ssr` generator indexes `levels[j]` for `j < len(dm)` and raises
`IndexError` exactly when the matrix has at least two rows and more rows
than there are levels; then, in `f_interaction` (line 230), a division of a
plain Python float `0.0` by `0.0` raises `ZeroDivisionError` — the
numerator `ssab/float((a-1)*(b-1))` when every contributing sum came from
an empty generator (builtin `sum` gives the int `0`, so `ssab` is a plain
float) and `(a-1)*(b-1) = 0`, else the denominator `ssr/float(bign-a*b)`
when the same-cell pair set is empty and `bign = a*b`.  (Lines 231-232
cannot raise once line 230 has not: a same-cell pair is a same-A and a
same-B pair, and `a = 1` or `b = 1` forces every pair to share that
factor.)  When the sums are `np.float64`, zero divisors yield inf/nan
without raising; those non-finite float outcomes are collapsed to the `ℚ`
convention `x/0 = 0`.  The float-type tracking is faithful for inputs that
`np.asarray` turns into a proper two-dimensional numeric array, i.e. rows
of equal length, as every theorem below assumes. -/
def f_twoway {α β : Type} [DecidableEq α] [DecidableEq β]
    (dm : List (List ℚ)) (levels : List (α × β)) : Except String (ℚ × ℚ × ℚ) :=
  if aCount levels * bCount levels = 0 then .error "ZeroDivisionError"
  else if 2 ≤ dm.length ∧ levels.length < dm.length then .error "IndexError"
  else if sstEmptyB dm = true ∧ noPairB dm (lvlEq levels) = true ∧
      noPairB dm (fstEq levels) = true ∧ noPairB dm (sndEq levels) = true ∧
      (aCount levels - 1) * (bCount levels - 1) = 0 then .error "ZeroDivisionError"
  else if noPairB dm (lvlEq levels) = true ∧
      levels.length = aCount levels * bCount levels then .error "ZeroDivisionError"
  else .ok (fTwowayCore dm levels)

/-- One `random.shuffle` outcome: the list rearranged by the position table
`p`, so that `result[k] = l[p[k]]`.  A genuine shuffle is a `p` that is a
permutation of `range l.length`. -/
def applyPerm {α : Type} [Inhabited α] (p : List ℕ) (l : List α) : List α :=
  p.map fun k => l.getD k default

/-- Successive contents of a list that is shuffled in place once per trial
(the source reuses one working copy across the whole loop). -/
def shuffleStates {α : Type} [Inhabited α] : List (List ℕ) → List α → List (List α)
  | [], _ => []
  | p :: ps, l =>
    let l' := applyPerm p l
    l' :: shuffleStates ps l'

/-- Trial loop of `permanova_oneway`: shuffle the working copy, recompute the
F statistic, and count the trials whose statistic is `>=` the observed
`bigf`. -/
def onewayLoop {α : Type} [DecidableEq α] [Inhabited α] (dm : List (List ℚ)) (bigf : ℚ) :
    List (List ℕ) → List α → ℕ → Except String ℕ
  | [], _, above => .ok above
  | p :: ps, cur, above =>
    let cur' := applyPerm p cur
    match f_oneway dm cur' with
    | .error e => .error e
    | .ok f => onewayLoop dm bigf ps cur' (if bigf ≤ f then above + 1 else above)

/-- `permanova_oneway(dm, levels, permutations)` with the random draws made
explicit: one position table per trial.  Returns the observed F and
`above/float(permutations)`; that final division raises
`ZeroDivisionError` when `permutations = 0`. -/
def permanova_oneway {α : Type} [DecidableEq α] [Inhabited α]
    (dm : List (List ℚ)) (levels : List α) (draws : List (List ℕ)) :
    Except String (ℚ × ℚ) :=
  match f_oneway dm levels with
  | .error e => .error e
  | .ok bigf =>
    match onewayLoop dm bigf draws levels 0 with
    | .error e => .error e
    | .ok above =>
      if draws.length = 0 then .error "ZeroDivisionError"
      else .ok (bigf, (above : ℚ) / (draws.length : ℚ))

/-- First trial loop of `permanova_twoway`: the full `(A,B)` pair list is
shuffled jointly; trials with `f_i > bigf_i` (strictly) are counted. -/
def twowayLoopI {α β : Type} [DecidableEq α] [DecidableEq β] [Inhabited α] [Inhabited β]
    (dm : List (List ℚ)) (bigfI : ℚ) :
    List (List ℕ) → List (α × β) → ℕ → Except String ℕ
  | [], _, above => .ok above
  | p :: ps, cur, above =>
    let cur' := applyPerm p cur
    match f_twoway dm cur' with
    | .error e => .error e
    | .ok fs => twowayLoopI dm bigfI ps cur' (if bigfI < fs.1 then above + 1 else above)

/-- Second trial loop of `permanova_twoway`: only the A-labels are shuffled
(cumulatively), each trial zipped with the original B-labels; trials with
`f_a > bigf_a` (strictly) are counted. -/
def twowayLoopA {α β : Type} [DecidableEq α] [DecidableEq β] [Inhabited α] [Inhabited β]
    (dm : List (List ℚ)) (bigfA : ℚ) (bFixed : List β) :
    List (List ℕ) → List α → ℕ → Except String ℕ
  | [], _, above => .ok above
  | p :: ps, curA, above =>
    let curA' := applyPerm p curA
    match f_twoway dm (curA'.zip bFixed) with
    | .error e => .error e
    | .ok fs => twowayLoopA dm bigfA bFixed ps curA' (if bigfA < fs.2.1 then above + 1 else above)

/-- Third trial loop of `permanova_twoway`: only the B-labels are shuffled
(cumulatively), zipped after the original A-labels; trials with
`f_b > bigf_b` (strictly) are counted. -/
def twowayLoopB {α β : Type} [DecidableEq α] [DecidableEq β] [Inhabited α] [Inhabited β]
    (dm : List (List ℚ)) (bigfB : ℚ) (aFixed : List α) :
    List (List ℕ) → List β → ℕ → Except String ℕ
  | [], _, above => .ok above
  | p :: ps, curB, above =>
    let curB' := applyPerm p curB
    match f_twoway dm (aFixed.zip curB') with
    | .error e => .error e
    | .ok fs => twowayLoopB dm bigfB aFixed ps curB' (if bigfB < fs.2.2 then above + 1 else above)

/-- `permanova_twoway(dm, levels, permutations)` with the random draws of the
three separate trial loops made explicit (in the source all three loops run
`permutations` times, so the three lists have equal length in faithful use).
Returns `(p_interaction, p_a, p_b)`; the final divisions by
`float(permutations)` raise `ZeroDivisionError` when `permutations = 0`. -/
def permanova_twoway {α β : Type} [DecidableEq α] [DecidableEq β] [Inhabited α] [Inhabited β]
    (dm : List (List ℚ)) (levels : List (α × β))
    (drawsI drawsA drawsB : List (List ℕ)) : Except String (ℚ × ℚ × ℚ) :=
  match f_twoway dm levels with
  | .error e => .error e
  | .ok fs =>
    match twowayLoopI dm fs.1 drawsI levels 0 with
    | .error e => .error e
    | .ok aboveI =>
      match twowayLoopA dm fs.2.1 (levels.map Prod.snd) drawsA (levels.map Prod.fst) 0 with
      | .error e => .error e
      | .ok aboveA =>
        match twowayLoopB dm fs.2.2 (levels.map Prod.fst) drawsB (levels.map Prod.snd) 0 with
        | .error e => .error e
        | .ok aboveB =>
          if drawsI.length = 0 ∨ drawsA.length = 0 ∨ drawsB.length = 0 then
            .error "ZeroDivisionError"
          else
            .ok ((aboveI : ℚ) / (drawsI.length : ℚ),
                 (aboveA : ℚ) / (drawsA.length : ℚ),
                 (aboveB : ℚ) / (drawsB.length : ℚ))

/-- Balanced one-way design: every label occurs `n/a` times, i.e.
`count x * a = n` for every entry `x`. -/
def balancedB {α : Type} [DecidableEq α] (levels : List α) : Bool :=
  levels.all fun x => levels.count x * levels.dedup.length == levels.length

/-- Balanced two-way design: every `(A,B)` cell occurring in the list occurs
`n/(a*b)` times. -/
def balancedTW {α β : Type} [DecidableEq α] [DecidableEq β] (levels : List (α × β)) : Bool :=
  levels.all fun x => levels.count x * (aCount levels * bCount levels) == levels.length

/-- Symmetry of the distance matrix on its index square. -/
def symB (dm : List (List ℚ)) : Bool :=
  decide (∀ i < dm.length, ∀ j < dm.length, ent dm i j = ent dm j i)

/-- Zero diagonal of the distance matrix. -/
def zeroDiagB (dm : List (List ℚ)) : Bool :=
  decide (∀ i < dm.length, ent dm i i = 0)

/-- The matrix reordered by `p` on rows and columns simultaneously. -/
def permMat (p : List ℕ) (dm : List (List ℚ)) : List (List ℚ) :=
  p.map fun i => p.map fun j => ent dm i j

instance {ε σ : Type} [DecidableEq ε] [DecidableEq σ] : DecidableEq (Except ε σ) :=
  fun a b =>
  match a, b with
  | .error e, .error f =>
    if h : e = f then .isTrue (by rw [h]) else .isFalse (by intro hh; injection hh; exact h (by assumption))
  | .error _, .ok _ => .isFalse (by intro h; injection h)
  | .ok _, .error _ => .isFalse (by intro h; injection h)
  | .ok x, .ok y =>
    if h : x = y then .isTrue (by rw [h]) else .isFalse (by intro hh; injection hh; exact h (by assumption))

/-! Concrete inputs used by witnesses and counterexamples. -/

/-- A 4×4 symmetric zero-diagonal distance matrix. -/
def dmX : List (List ℚ) :=
  [[0, 1, 1, 2],
   [1, 0, 1, 0],
   [1, 1, 0, 1],
   [2, 0, 1, 0]]

/-- A balanced one-way assignment of 4 observations to 2 groups. -/
def lvX : List ℕ := [0, 0, 1, 1]

/-- A second 4×4 symmetric zero-diagonal distance matrix. -/
def dmC : List (List ℚ) :=
  [[0, 1, 2, 3],
   [1, 0, 4, 5],
   [2, 4, 0, 6],
   [3, 5, 6, 0]]

/-- A balanced two-way assignment: one observation per cell of a 2×2 design. -/
def lvC : List (ℕ × ℕ) := [(0, 0), (0, 1), (1, 0), (1, 1)]

/-- A 2×2 symmetric zero-diagonal distance matrix. -/
def dmTwo : List (List ℚ) := [[0, 1], [1, 0]]

/-- An 8×8 symmetric zero-diagonal distance matrix
(`d(i,j) = (i+j) % 5 + 1` off the diagonal). -/
def dmE : List (List ℚ) :=
  [[0, 2, 3, 4, 5, 1, 2, 3],
   [2, 0, 4, 5, 1, 2, 3, 4],
   [3, 4, 0, 1, 2, 3, 4, 5],
   [4, 5, 1, 0, 3, 4, 5, 1],
   [5, 1, 2, 3, 0, 5, 1, 2],
   [1, 2, 3, 4, 5, 0, 2, 3],
   [2, 3, 4, 5, 1, 2, 0, 4],
   [3, 4, 5, 1, 2, 3, 4, 0]]

/-- A balanced two-way assignment with two observations per cell of a 2×2
design: the replicated regime where `f_twoway` genuinely returns. -/
def lvE : List (ℕ × ℕ) :=
  [(0, 0), (0, 0), (0, 1), (0, 1), (1, 0), (1, 0), (1, 1), (1, 1)]

/-- The identity position table on 8 observations. -/
def idEight : List ℕ := [0, 1, 2, 3, 4, 5, 6, 7]

/-- Unfolding of the shape test. -/
lemma shapeOK_iff {dm : List (List ℚ)} {bign : ℕ} :
    shapeOK dm bign = true ↔
      bign ≠ 0 ∧ dm.length = bign ∧ ∀ row ∈ dm, row.length = bign := by
  simp [shapeOK, List.all_eq_true, and_assoc]

/-- A nonempty list has a nonempty dedup. -/
lemma dedup_length_pos {α : Type} [DecidableEq α] {l : List α} (h : l ≠ []) :
    0 < l.dedup.length := by
  rcases Nat.eq_zero_or_pos l.dedup.length with h0 | h0
  · exact absurd ((List.dedup_eq_nil l).mp (List.length_eq_zero.mp h0)) h
  · exact h0

/-- A list repeats an element exactly when its dedup is shorter. -/
lemma dedup_length_eq_iff_nodup {α : Type} [DecidableEq α] {l : List α} :
    l.dedup.length = l.length ↔ l.Nodup := by
  constructor
  · intro h
    have heq : l.dedup = l := (List.dedup_sublist l).eq_of_length h
    rw [← heq]
    exact l.nodup_dedup
  · intro h
    rw [List.dedup_eq_self.mpr h]

/-- On a square matrix, the `sst` chain is empty exactly for sizes 0 and 1. -/
lemma sstEmptyB_square {dm : List (List ℚ)}
    (hsq : ∀ row ∈ dm, row.length = dm.length) :
    sstEmptyB dm = decide (dm.length ≤ 1) := by
  rcases Nat.lt_or_ge dm.length 2 with h | h
  · rw [decide_eq_true (by omega : dm.length ≤ 1)]
    unfold sstEmptyB
    rw [decide_eq_true]
    intro i hi
    have hrow : dm.getD i [] ∈ dm := by
      rw [List.getD_eq_getElem dm [] hi]
      exact List.getElem_mem hi
    rw [hsq _ hrow]
    omega
  · rw [decide_eq_false (by omega : ¬dm.length ≤ 1)]
    unfold sstEmptyB
    rw [decide_eq_false]
    intro hall
    have hrow : dm.getD 0 [] ∈ dm := by
      rw [List.getD_eq_getElem dm [] (by omega)]
      exact List.getElem_mem (by omega)
    have h0 := hall 0 (by omega)
    rw [hsq _ hrow] at h0
    omega

/-- The matrix argument of `noPairB` enters only through its length. -/
lemma noPairB_congr {dm1 dm2 : List (List ℚ)} (hlen : dm1.length = dm2.length)
    (q : ℕ → ℕ → Bool) : noPairB dm1 q = noPairB dm2 q := by
  unfold noPairB
  rw [hlen]

/-- For a full-size matrix, no two scanned positions share their labels
exactly when the label list has no duplicate. -/
lemma noPairB_lvlEq_iff {α : Type} [DecidableEq α] {dm : List (List ℚ)}
    {levels : List α} (hlen : dm.length = levels.length) :
    noPairB dm (lvlEq levels) = true ↔ levels.Nodup := by
  rw [List.nodup_iff_getElem?_ne_getElem?]
  simp only [noPairB, lvlEq, decide_eq_true_eq, decide_eq_false_iff_not]
  constructor
  · intro h i j hij hj
    exact h i (by omega) j (by omega) hij
  · intro h i _ j hj hij
    exact h i j hij (by omega)

/-- For a full-size matrix, no two scanned positions share their A-label
exactly when the projected A-label list has no duplicate. -/
lemma noPairB_fstEq_iff {α β : Type} [DecidableEq α] {dm : List (List ℚ)}
    {levels : List (α × β)} (hlen : dm.length = levels.length) :
    noPairB dm (fstEq levels) = true ↔ (levels.map Prod.fst).Nodup := by
  rw [List.nodup_iff_getElem?_ne_getElem?]
  simp only [noPairB, fstEq, decide_eq_true_eq, decide_eq_false_iff_not,
    List.getElem?_map, List.length_map]
  constructor
  · intro h i j hij hj
    exact h i (by omega) j (by omega) hij
  · intro h i _ j hj hij
    exact h i j hij (by omega)

/-- For a full-size matrix, no two scanned positions share their B-label
exactly when the projected B-label list has no duplicate. -/
lemma noPairB_sndEq_iff {α β : Type} [DecidableEq β] {dm : List (List ℚ)}
    {levels : List (α × β)} (hlen : dm.length = levels.length) :
    noPairB dm (sndEq levels) = true ↔ (levels.map Prod.snd).Nodup := by
  rw [List.nodup_iff_getElem?_ne_getElem?]
  simp only [noPairB, sndEq, decide_eq_true_eq, decide_eq_false_iff_not,
    List.getElem?_map, List.length_map]
  constructor
  · intro h i j hij hj
    exact h i (by omega) j (by omega) hij
  · intro h i _ j hj hij
    exact h i j hij (by omega)

/-- Two booleans agreeing as propositions are equal. -/
lemma bool_eq_of_iff {a b : Bool} (h : a = true ↔ b = true) : a = b := by
  cases a <;> cases b <;> simp_all

/-- Two matrices of equal size agreeing above the diagonal have the same
filtered upper-triangle sums. -/
lemma sumUT_congr {dm1 dm2 : List (List ℚ)} (hlen : dm1.length = dm2.length)
    (hagree : ∀ i < dm1.length, ∀ j < dm1.length, i < j → ent dm1 i j = ent dm2 i j)
    (q : ℕ → ℕ → Bool) : sumUT dm1 q = sumUT dm2 q := by
  unfold sumUT
  rw [← hlen]
  refine Finset.sum_congr rfl fun i hi => Finset.sum_congr rfl fun j hj => ?_
  rw [Finset.mem_range] at hi
  rw [Finset.mem_Ico] at hj
  rw [hagree i (by omega) j hj.2 (by omega)]

/-- On a square matrix the two-way `sst` row-tail sum is the unconditional
upper-triangle sum. -/
lemma ssTotalRows_eq_sumUT {dm : List (List ℚ)}
    (hsq : ∀ row ∈ dm, row.length = dm.length) :
    ssTotalRows dm = sumUT dm fun _ _ => true := by
  unfold ssTotalRows sumUT
  refine Finset.sum_congr rfl fun i hi => ?_
  rw [Finset.mem_range] at hi
  have hrow : (dm.getD i []).length = dm.length := by
    have : dm.getD i [] ∈ dm := by
      rw [List.getD_eq_getElem dm [] hi]
      exact List.getElem_mem hi
    exact hsq _ this
  rw [hrow]
  simp

/-- With a square matrix of matching size and a repeated label, `f_oneway`
reaches its body (no division of the plain float `0.0` occurs). -/
lemma f_oneway_ok {α : Type} [DecidableEq α] {dm : List (List ℚ)} {levels : List α}
    (hsq : shapeOK dm levels.length = true)
    (hded : levels.dedup.length ≠ levels.length) :
    f_oneway dm levels = .ok (fOnewayCore dm levels) := by
  have hne : levels ≠ [] := by
    intro h
    exact (shapeOK_iff.mp hsq).1 (by rw [h]; rfl)
  unfold f_oneway
  rw [if_neg (by have := dedup_length_pos hne; omega), if_pos hsq, if_neg hded]

/-- With a full-size square matrix, at least two observations and a design
that is not one-observation-per-cell (`n ≠ a*b`), `f_twoway` reaches its
body: `sst` is an `np.float64` and the raising divisor `bign - a*b` is
nonzero. -/
lemma f_twoway_ok_sq {α β : Type} [DecidableEq α] [DecidableEq β]
    {dm : List (List ℚ)} {levels : List (α × β)}
    (hlen : dm.length = levels.length)
    (hsq : ∀ row ∈ dm, row.length = dm.length)
    (h2 : 2 ≤ levels.length)
    (hab : levels.length ≠ aCount levels * bCount levels) :
    f_twoway dm levels = .ok (fTwowayCore dm levels) := by
  have hne : levels ≠ [] := List.length_pos.mp (by omega)
  have hma : levels.map Prod.fst ≠ [] := by
    simpa [List.map_eq_nil_iff] using hne
  have hmb : levels.map Prod.snd ≠ [] := by
    simpa [List.map_eq_nil_iff] using hne
  have ha1 := dedup_length_pos hma
  have hb1 := dedup_length_pos hmb
  have habz : ¬aCount levels * bCount levels = 0 := by
    unfold aCount bCount
    positivity
  have hsst : ¬sstEmptyB dm = true := by
    rw [sstEmptyB_square hsq]
    simp only [decide_eq_true_eq]
    omega
  unfold f_twoway
  rw [if_neg habz, if_neg (by omega), if_neg (fun hcon => hsst hcon.1),
    if_neg (fun hcon => hab hcon.2)]

/-- Claim C7: the sums of squares computed inside `f_twoway` satisfy
`SST = SSA + SSB + SSAB + SSR` exactly, for every input, because `ssab` is
defined in the source as `sst - ssa - ssb - ssr`. -/
theorem claim7_decomposition {α β : Type} [DecidableEq α] [DecidableEq β]
    (dm : List (List ℚ)) (levels : List (α × β)) :
    sstTW dm levels =
      ssaTW dm levels + ssbTW dm levels + ssabTW dm levels + ssrTW dm levels := by
  unfold ssabTW
  ring

/-- Counterexample to claim C3: in `permanova_twoway`, a trial whose
interaction F statistic ties the observed one (here: an identity shuffle on
a replicated balanced design, so every trial statistic equals the observed
one and no degenerate division occurs) is NOT counted toward the
interaction p-value — the source compares with strict `>`, not `≥`.  The
claim predicts a count of 1 out of 1 (p = 1); the code returns p = 0. -/
theorem claim3_counterexample :
    permanova_twoway dmE lvE [idEight] [idEight] [idEight] = .ok (0, 0, 0) ∧
    (fTwowayCore dmE (applyPerm idEight lvE)).1 ≥ (fTwowayCore dmE lvE).1 :=
  of_decide_eq_true (by with_unfolding_all rfl)

/-- Counterexample to claim C8: the observed F of `permanova_oneway` is
invariant under simultaneously permuting the matrix and the levels (both
runs return F = 2), but the p-value for identical random draws is NOT: with
the single draw `[0,2,1,3]` the unpermuted run counts its trial (p = 1)
while the run permuted by `[0,1,3,2]` does not (p = 0), although the input
matrix is symmetric with zero diagonal and the permutation is genuine. -/
theorem claim8_counterexample :
    symB dmX = true ∧ zeroDiagB dmX = true ∧ shapeOK dmX lvX.length = true ∧
    List.Perm [0, 1, 3, 2] (List.range lvX.length) ∧
    List.Perm [0, 2, 1, 3] (List.range lvX.length) ∧
    permanova_oneway dmX lvX [[0, 2, 1, 3]] = .ok (2, 1) ∧
    permanova_oneway (permMat [0, 1, 3, 2] dmX) (applyPerm [0, 1, 3, 2] lvX)
      [[0, 2, 1, 3]] = .ok (2, 0) :=
  of_decide_eq_true (by with_unfolding_all rfl)

/-- A second square matrix differing from `dmTwo` on and below the diagonal
but agreeing above it. -/
def dmAlt : List (List ℚ) := [[5, 1], [7, 9]]

/-- Claim C10: the F statistics of `f_oneway` and `f_twoway` depend only on
the strict upper triangle of the distance matrix: two square matrices of the
same size agreeing on every entry above the diagonal (possibly differing on
or below it) give identical results on every level assignment. -/
theorem claim10_upper_triangle_only
    (dm1 dm2 : List (List ℚ))
    (hlen : dm1.length = dm2.length)
    (hsq1 : ∀ row ∈ dm1, row.length = dm1.length)
    (hsq2 : ∀ row ∈ dm2, row.length = dm2.length)
    (hagree : ∀ i < dm1.length, ∀ j < dm1.length, i < j → ent dm1 i j = ent dm2 i j) :
    (∀ {α : Type} [DecidableEq α] (levels : List α),
        f_oneway dm1 levels = f_oneway dm2 levels) ∧
    (∀ {α β : Type} [DecidableEq α] [DecidableEq β] (levels : List (α × β)),
        f_twoway dm1 levels = f_twoway dm2 levels) := by
  have hsums : ∀ q : ℕ → ℕ → Bool, sumUT dm1 q = sumUT dm2 q :=
    sumUT_congr hlen hagree
  have hrows : ssTotalRows dm1 = ssTotalRows dm2 := by
    rw [ssTotalRows_eq_sumUT hsq1, ssTotalRows_eq_sumUT hsq2, hsums]
  have hshape : ∀ bign, shapeOK dm1 bign = shapeOK dm2 bign := by
    intro bign
    cases h1 : shapeOK dm1 bign <;> cases h2 : shapeOK dm2 bign <;> try rfl
    · rcases shapeOK_iff.mp h2 with ⟨hb, hl, hr⟩
      have : shapeOK dm1 bign = true := by
        refine shapeOK_iff.mpr ⟨hb, by omega, fun row hrow => ?_⟩
        rw [hsq1 row hrow]; omega
      rw [h1] at this; cases this
    · rcases shapeOK_iff.mp h1 with ⟨hb, hl, hr⟩
      have : shapeOK dm2 bign = true := by
        refine shapeOK_iff.mpr ⟨hb, by omega, fun row hrow => ?_⟩
        rw [hsq2 row hrow]; omega
      rw [h2] at this; cases this
  constructor
  · intro α _ levels
    unfold f_oneway fOnewayCore
    rw [hshape, hsums, hsums]
  · intro α β _ _ levels
    have hsstB : sstEmptyB dm1 = sstEmptyB dm2 := by
      rw [sstEmptyB_square hsq1, sstEmptyB_square hsq2, hlen]
    unfold f_twoway fTwowayCore ssabTW ssaTW ssbTW ssrTW sswaTW sswbTW sstTW
    rw [hlen, hrows, hsums, hsums, hsums, hsstB, noPairB_congr hlen,
      noPairB_congr hlen, noPairB_congr hlen]

/-- Witness for claim C10: `dmTwo` and `dmAlt` agree above the diagonal only,
and both calculators return identical results on them. -/
theorem claim10_witness :
    f_oneway dmTwo [0, 1] = f_oneway dmAlt [0, 1] ∧
    f_twoway dmTwo [((0 : ℕ), (0 : ℕ)), (1, 1)] = f_twoway dmAlt [((0 : ℕ), (0 : ℕ)), (1, 1)] :=
  ⟨(claim10_upper_triangle_only dmTwo dmAlt (by decide) (by decide) (by decide)
      (of_decide_eq_true (by with_unfolding_all rfl))).1 [0, 1],
   (claim10_upper_triangle_only dmTwo dmAlt (by decide) (by decide) (by decide)
      (of_decide_eq_true (by with_unfolding_all rfl))).2 [((0 : ℕ), (0 : ℕ)), (1, 1)]⟩

/-- Unfolding of the one-way balance test. -/
lemma balancedB_spec {α : Type} [DecidableEq α] {levels : List α}
    (h : balancedB levels = true) :
    ∀ x ∈ levels, levels.count x * levels.dedup.length = levels.length := by
  simpa [balancedB, List.all_eq_true] using h

/-- Counterexample to claim C1: on the balanced assignment `[0, 1]` (every
label distinct, one observation per group) with a symmetric zero-diagonal
2×2 matrix — an input satisfying every hypothesis of the claim — `f_oneway`
raises `ZeroDivisionError` at `ssw/float(bign-a)` (the empty same-label sum
makes `ssw` the plain Python float `0.0` and `bign - a = 0`) instead of
returning the claimed F value. -/
theorem claim1_counterexample :
    symB dmTwo = true ∧ zeroDiagB dmTwo = true ∧
    shapeOK dmTwo ([0, 1] : List ℕ).length = true ∧
    balancedB ([0, 1] : List ℕ) = true ∧ 2 ≤ ([0, 1] : List ℕ).dedup.length ∧
    f_oneway dmTwo ([0, 1] : List ℕ) = .error "ZeroDivisionError" :=
  of_decide_eq_true (by with_unfolding_all rfl)

/-- Claim C1 (amended): for a symmetric zero-diagonal square distance matrix
and a balanced assignment with `a ≥ 2` distinct labels and more than one
observation per group (`a < n`; with `a = n` the source raises
`ZeroDivisionError`, see the counterexample), `f_oneway` returns
`(SSA/(a-1)) / (SSW/(n-a))` with `SST` the upper-triangle sum of squared
distances over `n`, `SSW` the same-label sum over `n/a` (observations per
group, exact by balance), and `SSA = SST - SSW`. -/
theorem claim1_f_oneway_formula {α : Type} [DecidableEq α]
    (dm : List (List ℚ)) (levels : List α)
    (hsq : shapeOK dm levels.length = true)
    (hsym : symB dm = true) (hdiag : zeroDiagB dm = true)
    (hbal : balancedB levels = true)
    (ha : 2 ≤ levels.dedup.length)
    (hlt : levels.dedup.length < levels.length) :
    f_oneway dm levels = .ok
      ((((sumUT dm fun _ _ => true) / (levels.length : ℚ) -
            sumUT dm (lvlEq levels) / ((levels.length : ℚ) / (levels.dedup.length : ℚ))) /
          ((levels.dedup.length : ℚ) - 1)) /
        ((sumUT dm (lvlEq levels) / ((levels.length : ℚ) / (levels.dedup.length : ℚ))) /
          ((levels.length : ℚ) - (levels.dedup.length : ℚ)))) := by
  have hne : levels ≠ [] := by
    intro h
    rw [h] at ha
    simp [List.dedup_nil] at ha
  obtain ⟨x, hx⟩ := List.exists_mem_of_ne_nil levels hne
  have hdvd : levels.dedup.length ∣ levels.length :=
    ⟨levels.count x, by rw [← balancedB_spec hbal x hx]; ring⟩
  have hcast : ((levels.length / levels.dedup.length : ℕ) : ℚ)
      = (levels.length : ℚ) / (levels.dedup.length : ℚ) :=
    Nat.cast_div hdvd (by exact_mod_cast (by omega : levels.dedup.length ≠ 0))
  unfold f_oneway
  rw [if_neg (by omega), if_pos hsq, if_neg (by omega)]
  simp only [fOnewayCore]
  rw [hcast]

/-- Witness for claim C1 at a concrete balanced symmetric input. -/
theorem claim1_witness :
    f_oneway dmX lvX = .ok
      ((((sumUT dmX fun _ _ => true) / (lvX.length : ℚ) -
            sumUT dmX (lvlEq lvX) / ((lvX.length : ℚ) / (lvX.dedup.length : ℚ))) /
          ((lvX.dedup.length : ℚ) - 1)) /
        ((sumUT dmX (lvlEq lvX) / ((lvX.length : ℚ) / (lvX.dedup.length : ℚ))) /
          ((lvX.length : ℚ) - (lvX.dedup.length : ℚ)))) :=
  claim1_f_oneway_formula dmX lvX (by decide)
    (of_decide_eq_true (by with_unfolding_all rfl))
    (of_decide_eq_true (by with_unfolding_all rfl)) (by decide) (by decide) (by decide)

/-- Counterexample to claim C2: on the balanced one-observation-per-cell
design `lvC` (so `n = a*b = 4`) with the symmetric zero-diagonal 4×4 matrix
`dmC` — an input satisfying every hypothesis of the claim — `f_twoway`
raises `ZeroDivisionError` at `ssr/float(bign - a*b)` (the empty same-cell
sum makes `ssr` the plain Python float `0.0` and `bign - a*b = 0`) instead
of returning the claimed triple. -/
theorem claim2_counterexample :
    symB dmC = true ∧ zeroDiagB dmC = true ∧ shapeOK dmC lvC.length = true ∧
    balancedTW lvC = true ∧
    f_twoway dmC lvC = .error "ZeroDivisionError" :=
  of_decide_eq_true (by with_unfolding_all rfl)

/-- Claim C2 (amended): for a symmetric zero-diagonal square distance matrix
and a balanced two-way assignment with more than one observation per cell
(`a*b < n`; with `n = a*b` the source raises `ZeroDivisionError`, see the
counterexample), `f_twoway` returns `(F_interaction, F_A, F_B)` built from
`SST` (upper-triangle sum over `n`), `SSR` (same-cell sum over `n/(a*b)`),
`SSWA` (same-A sum over `b*(n/(a*b))`), `SSWB` (same-B sum over
`a*(n/(a*b))`), `SSA = SST - SSWA`, `SSB = SST - SSWB`,
`SSAB = SST - SSA - SSB - SSR`, each F divided by `SSR/(n-ab)`. -/
theorem claim2_f_twoway_formula {α β : Type} [DecidableEq α] [DecidableEq β]
    (dm : List (List ℚ)) (levels : List (α × β))
    (hlen : dm.length = levels.length)
    (hsq : ∀ row ∈ dm, row.length = dm.length)
    (hsym : symB dm = true) (hdiag : zeroDiagB dm = true)
    (hbal : balancedTW levels = true)
    (hne : levels ≠ [])
    (hrep : aCount levels * bCount levels < levels.length) :
    f_twoway dm levels = .ok
      (let n : ℚ := (levels.length : ℚ)
       let a : ℚ := (aCount levels : ℚ)
       let b : ℚ := (bCount levels : ℚ)
       let sst := (sumUT dm fun _ _ => true) / n
       let ssr := sumUT dm (lvlEq levels) / (n / (a * b))
       let sswa := sumUT dm (fstEq levels) / (b * (n / (a * b)))
       let sswb := sumUT dm (sndEq levels) / (a * (n / (a * b)))
       let ssa := sst - sswa
       let ssb := sst - sswb
       let ssab := sst - ssa - ssb - ssr
       ((ssab / ((a - 1) * (b - 1))) / (ssr / (n - a * b)),
        (ssa / (a - 1)) / (ssr / (n - a * b)),
        (ssb / (b - 1)) / (ssr / (n - a * b)))) := by
  have hma : levels.map Prod.fst ≠ [] := by
    simpa [List.map_eq_nil_iff] using hne
  have hmb : levels.map Prod.snd ≠ [] := by
    simpa [List.map_eq_nil_iff] using hne
  have ha1 : 0 < aCount levels := dedup_length_pos hma
  have hb1 : 0 < bCount levels := dedup_length_pos hmb
  have hmul : 0 < aCount levels * bCount levels := Nat.mul_pos ha1 hb1
  rw [f_twoway_ok_sq hlen hsq (by omega) (by omega)]
  simp only [fTwowayCore, ssabTW, ssaTW, ssbTW, ssrTW, sswaTW, sswbTW, sstTW, cellN]
  rw [ssTotalRows_eq_sumUT hsq]
  push_cast
  rfl

/-- Witness for claim C2 (amended) at a concrete replicated balanced
symmetric two-way input. -/
theorem claim2_witness :
    f_twoway dmE lvE = .ok
      (let n : ℚ := (lvE.length : ℚ)
       let a : ℚ := (aCount lvE : ℚ)
       let b : ℚ := (bCount lvE : ℚ)
       let sst := (sumUT dmE fun _ _ => true) / n
       let ssr := sumUT dmE (lvlEq lvE) / (n / (a * b))
       let sswa := sumUT dmE (fstEq lvE) / (b * (n / (a * b)))
       let sswb := sumUT dmE (sndEq lvE) / (a * (n / (a * b)))
       let ssa := sst - sswa
       let ssb := sst - sswb
       let ssab := sst - ssa - ssb - ssr
       ((ssab / ((a - 1) * (b - 1))) / (ssr / (n - a * b)),
        (ssa / (a - 1)) / (ssr / (n - a * b)),
        (ssb / (b - 1)) / (ssr / (n - a * b)))) :=
  claim2_f_twoway_formula dmE lvE (by decide) (by decide)
    (of_decide_eq_true (by with_unfolding_all rfl))
    (of_decide_eq_true (by with_unfolding_all rfl)) (by decide) (by decide)
    (by decide)

/-- Any successful run of the one-way trial loop counts at most one per
trial. -/
lemma onewayLoop_le {α : Type} [DecidableEq α] [Inhabited α]
    (dm : List (List ℚ)) (bigf : ℚ) :
    ∀ (draws : List (List ℕ)) (cur : List α) (above m : ℕ),
      onewayLoop dm bigf draws cur above = .ok m → m ≤ above + draws.length := by
  intro draws
  induction draws with
  | nil =>
    intro cur above m h
    simp only [onewayLoop] at h
    injection h with h
    omega
  | cons p ps ih =>
    intro cur above m h
    simp only [onewayLoop] at h
    split at h
    · cases h
    · have h2 := ih _ _ _ h
      simp only [List.length_cons]
      split at h2 <;> omega

/-- Any successful run of the interaction trial loop counts at most one per
trial. -/
lemma twowayLoopI_le {α β : Type} [DecidableEq α] [DecidableEq β]
    [Inhabited α] [Inhabited β] (dm : List (List ℚ)) (bigfI : ℚ) :
    ∀ (draws : List (List ℕ)) (cur : List (α × β)) (above m : ℕ),
      twowayLoopI dm bigfI draws cur above = .ok m → m ≤ above + draws.length := by
  intro draws
  induction draws with
  | nil =>
    intro cur above m h
    simp only [twowayLoopI] at h
    injection h with h
    omega
  | cons p ps ih =>
    intro cur above m h
    simp only [twowayLoopI] at h
    split at h
    · cases h
    · have h2 := ih _ _ _ h
      simp only [List.length_cons]
      split at h2 <;> omega

/-- Any successful run of the factor-A trial loop counts at most one per
trial. -/
lemma twowayLoopA_le {α β : Type} [DecidableEq α] [DecidableEq β]
    [Inhabited α] [Inhabited β] (dm : List (List ℚ)) (bigfA : ℚ) (bFixed : List β) :
    ∀ (draws : List (List ℕ)) (curA : List α) (above m : ℕ),
      twowayLoopA dm bigfA bFixed draws curA above = .ok m → m ≤ above + draws.length := by
  intro draws
  induction draws with
  | nil =>
    intro curA above m h
    simp only [twowayLoopA] at h
    injection h with h
    omega
  | cons p ps ih =>
    intro curA above m h
    simp only [twowayLoopA] at h
    split at h
    · cases h
    · have h2 := ih _ _ _ h
      simp only [List.length_cons]
      split at h2 <;> omega

/-- Any successful run of the factor-B trial loop counts at most one per
trial. -/
lemma twowayLoopB_le {α β : Type} [DecidableEq α] [DecidableEq β]
    [Inhabited α] [Inhabited β] (dm : List (List ℚ)) (bigfB : ℚ) (aFixed : List α) :
    ∀ (draws : List (List ℕ)) (curB : List β) (above m : ℕ),
      twowayLoopB dm bigfB aFixed draws curB above = .ok m → m ≤ above + draws.length := by
  intro draws
  induction draws with
  | nil =>
    intro curB above m h
    simp only [twowayLoopB] at h
    injection h with h
    omega
  | cons p ps ih =>
    intro curB above m h
    simp only [twowayLoopB] at h
    split at h
    · cases h
    · have h2 := ih _ _ _ h
      simp only [List.length_cons]
      split at h2 <;> omega

/-- A count of at most `P` trials divided by `P ≥ 1` lies in `[0, 1]`. -/
lemma count_div_bounds {c P : ℕ} (hP : 1 ≤ P) (hc : c ≤ P) :
    0 ≤ (c : ℚ) / (P : ℚ) ∧ (c : ℚ) / (P : ℚ) ≤ 1 := by
  constructor
  · positivity
  · rw [div_le_one (by exact_mod_cast hP)]
    exact_mod_cast hc

/-- Claim C9: whenever `permanova_oneway` or `permanova_twoway` returns and
at least one trial was requested, every returned p-value lies in the closed
interval `[0, 1]` (each is a count of at most `permutations` trials divided
by `permutations`). -/
theorem claim9_pvalue_bounds :
    (∀ {α : Type} [DecidableEq α] [Inhabited α] (dm : List (List ℚ)) (levels : List α)
        (draws : List (List ℕ)) (f p : ℚ),
        1 ≤ draws.length →
        permanova_oneway dm levels draws = .ok (f, p) → 0 ≤ p ∧ p ≤ 1) ∧
    (∀ {α β : Type} [DecidableEq α] [DecidableEq β] [Inhabited α] [Inhabited β]
        (dm : List (List ℚ)) (levels : List (α × β)) (dI dA dB : List (List ℕ))
        (pInt pA pB : ℚ),
        1 ≤ dI.length → 1 ≤ dA.length → 1 ≤ dB.length →
        permanova_twoway dm levels dI dA dB = .ok (pInt, pA, pB) →
        (0 ≤ pInt ∧ pInt ≤ 1) ∧ (0 ≤ pA ∧ pA ≤ 1) ∧ (0 ≤ pB ∧ pB ≤ 1)) := by
  constructor
  · intro α _ _ dm levels draws f p hP h
    unfold permanova_oneway at h
    split at h
    · cases h
    · rename_i bigf heqf
      split at h
      · cases h
      · rename_i above heq
        rw [if_neg (by omega)] at h
        injection h with h
        rw [Prod.mk.injEq] at h
        obtain ⟨h1, h2⟩ := h
        subst h2
        exact count_div_bounds hP
          (by have := onewayLoop_le dm bigf draws levels 0 above heq; omega)
  · intro α β _ _ _ _ dm levels dI dA dB pInt pA pB hPI hPA hPB h
    unfold permanova_twoway at h
    split at h
    · cases h
    · rename_i fs heq0
      split at h
      · cases h
      · rename_i aboveI heqI
        split at h
        · cases h
        · rename_i aboveA heqA
          split at h
          · cases h
          · rename_i aboveB heqB
            rw [if_neg (by rintro (h0 | h0 | h0) <;> omega)] at h
            injection h with h
            rw [Prod.mk.injEq, Prod.mk.injEq] at h
            obtain ⟨h1, h2, h3⟩ := h
            subst h1
            subst h2
            subst h3
            refine ⟨count_div_bounds hPI ?_, count_div_bounds hPA ?_, count_div_bounds hPB ?_⟩
            · have := twowayLoopI_le dm fs.1 dI levels 0 aboveI heqI
              omega
            · have := twowayLoopA_le dm fs.2.1 (levels.map Prod.snd) dA (levels.map Prod.fst)
                0 aboveA heqA
              omega
            · have := twowayLoopB_le dm fs.2.2 (levels.map Prod.fst) dB (levels.map Prod.snd)
                0 aboveB heqB
              omega

/-- Witness for claim C9: a run with one trial whose p-value is 1. -/
theorem claim9_witness : 0 ≤ (1 : ℚ) ∧ (1 : ℚ) ≤ 1 :=
  claim9_pvalue_bounds.1 dmX lvX [[0, 2, 1, 3]] 2 1 (by decide)
    (of_decide_eq_true (by with_unfolding_all rfl))

/-- A position table that is a permutation of `range n` has length `n`. -/
lemma perm_length {p : List ℕ} {n : ℕ} (h : p.Perm (List.range n)) : p.length = n := by
  simpa using h.length_eq

/-- Entries of a permutation table are below `n`. -/
lemma perm_getD_lt {p : List ℕ} {n : ℕ} (h : p.Perm (List.range n)) {i : ℕ} (hi : i < n) :
    p.getD i 0 < n := by
  have hlen : p.length = n := perm_length h
  have hi' : i < p.length := by omega
  rw [List.getD_eq_getElem p 0 hi']
  exact List.mem_range.mp (h.mem_iff.mp (List.getElem_mem hi'))

/-- A permutation table is injective on `range n`. -/
lemma perm_getD_inj {p : List ℕ} {n : ℕ} (h : p.Perm (List.range n)) {i j : ℕ}
    (hi : i < n) (hj : j < n) (hij : p.getD i 0 = p.getD j 0) : i = j := by
  have hlen := perm_length h
  have hnd : p.Nodup := h.nodup_iff.mpr (List.nodup_range n)
  have hi' : i < p.length := by omega
  have hj' : j < p.length := by omega
  rw [List.getD_eq_getElem p 0 hi', List.getD_eq_getElem p 0 hj'] at hij
  exact hnd.getElem_inj_iff.mp hij

/-- A permutation table maps `range n` onto `range n`. -/
lemma perm_image {p : List ℕ} {n : ℕ} (h : p.Perm (List.range n)) :
    (Finset.range n).image (fun i => p.getD i 0) = Finset.range n := by
  ext x
  simp only [Finset.mem_image, Finset.mem_range]
  constructor
  · rintro ⟨i, hi, rfl⟩
    exact perm_getD_lt h hi
  · intro hx
    obtain ⟨i, hi, hxi⟩ :=
      List.mem_iff_getElem.mp (h.mem_iff.mpr (List.mem_range.mpr hx))
    refine ⟨i, by rw [← perm_length h]; exact hi, ?_⟩
    rw [List.getD_eq_getElem p 0 hi]
    exact hxi

/-- Reindexing a sum over `range n` by a permutation table. -/
lemma sum_perm_reindex {p : List ℕ} {n : ℕ} (h : p.Perm (List.range n)) (g : ℕ → ℚ) :
    ∑ i ∈ Finset.range n, g (p.getD i 0) = ∑ i ∈ Finset.range n, g i := by
  conv_rhs => rw [← perm_image h]
  rw [Finset.sum_image]
  intro x hx y hy hxy
  exact perm_getD_inj h (Finset.mem_range.mp hx) (Finset.mem_range.mp hy) hxy

/-- The part of `range n` strictly above `i` is `Ico (i+1) n`. -/
lemma filter_gt_eq_Ico (n i : ℕ) :
    (Finset.range n).filter (fun j => i < j) = Finset.Ico (i + 1) n := by
  ext j
  simp only [Finset.mem_filter, Finset.mem_range, Finset.mem_Ico]
  omega

/-- For a symmetric function vanishing on the diagonal, the full square sum
is twice the strict-upper-triangle sum. -/
lemma sq_eq_two_tri (n : ℕ) (F : ℕ → ℕ → ℚ)
    (hdiag : ∀ i < n, F i i = 0)
    (hsym : ∀ i < n, ∀ j < n, F i j = F j i) :
    ∑ i ∈ Finset.range n, ∑ j ∈ Finset.range n, F i j
      = 2 * ∑ i ∈ Finset.range n, ∑ j ∈ Finset.Ico (i + 1) n, F i j := by
  have hsplit : ∀ i ∈ Finset.range n,
      ∑ j ∈ Finset.range n, F i j
        = (∑ j ∈ Finset.range n, if j < i then F i j else 0)
          + ∑ j ∈ Finset.range n, if i < j then F i j else 0 := by
    intro i hi
    rw [← Finset.sum_add_distrib]
    refine Finset.sum_congr rfl fun j hj => ?_
    rcases lt_trichotomy j i with hc | hc | hc
    · rw [if_pos hc, if_neg (by omega)]; ring
    · subst hc
      rw [if_neg (by omega : ¬j < j), hdiag j (Finset.mem_range.mp hj)]
      ring
    · rw [if_neg (by omega), if_pos hc]; ring
  have hupper : ∀ i ∈ Finset.range n,
      (∑ j ∈ Finset.range n, if i < j then F i j else 0)
        = ∑ j ∈ Finset.Ico (i + 1) n, F i j := by
    intro i _
    rw [← filter_gt_eq_Ico n i, Finset.sum_filter]
  have hlower :
      (∑ i ∈ Finset.range n, ∑ j ∈ Finset.range n, if j < i then F i j else 0)
        = ∑ i ∈ Finset.range n, ∑ j ∈ Finset.Ico (i + 1) n, F i j := by
    rw [Finset.sum_comm]
    refine Finset.sum_congr rfl fun i hi => ?_
    rw [← filter_gt_eq_Ico n i, Finset.sum_filter]
    refine Finset.sum_congr rfl fun j hj => ?_
    by_cases hc : i < j
    · rw [if_pos hc, if_pos hc, hsym j (Finset.mem_range.mp hj) i (Finset.mem_range.mp hi)]
    · rw [if_neg hc, if_neg hc]
  rw [Finset.sum_congr rfl hsplit, Finset.sum_add_distrib, hlower,
    Finset.sum_congr rfl hupper]
  ring

/-- Reindexing a strict-upper-triangle sum of a symmetric diagonal-free
function by a permutation table leaves it unchanged. -/
lemma sumTri_perm {p : List ℕ} {n : ℕ} (h : p.Perm (List.range n)) (F : ℕ → ℕ → ℚ)
    (hdiag : ∀ i < n, F i i = 0)
    (hsym : ∀ i < n, ∀ j < n, F i j = F j i) :
    ∑ i ∈ Finset.range n, ∑ j ∈ Finset.Ico (i + 1) n, F (p.getD i 0) (p.getD j 0)
      = ∑ i ∈ Finset.range n, ∑ j ∈ Finset.Ico (i + 1) n, F i j := by
  have hdiag' : ∀ i < n, F (p.getD i 0) (p.getD i 0) = 0 := fun i hi =>
    hdiag _ (perm_getD_lt h hi)
  have hsym' : ∀ i < n, ∀ j < n,
      F (p.getD i 0) (p.getD j 0) = F (p.getD j 0) (p.getD i 0) :=
    fun i hi j hj => hsym _ (perm_getD_lt h hi) _ (perm_getD_lt h hj)
  have h1 := sq_eq_two_tri n (fun i j => F (p.getD i 0) (p.getD j 0)) hdiag' hsym'
  have h2 := sq_eq_two_tri n F hdiag hsym
  have h3 : ∑ i ∈ Finset.range n, ∑ j ∈ Finset.range n, F (p.getD i 0) (p.getD j 0)
      = ∑ i ∈ Finset.range n, ∑ j ∈ Finset.range n, F i j := by
    have hinner : ∀ k, ∑ j ∈ Finset.range n, F k (p.getD j 0)
        = ∑ j ∈ Finset.range n, F k j := fun k => sum_perm_reindex h (F k)
    calc ∑ i ∈ Finset.range n, ∑ j ∈ Finset.range n, F (p.getD i 0) (p.getD j 0)
        = ∑ i ∈ Finset.range n, ∑ j ∈ Finset.range n, F (p.getD i 0) j :=
          Finset.sum_congr rfl fun i _ => hinner _
      _ = ∑ i ∈ Finset.range n, ∑ j ∈ Finset.range n, F i j :=
          sum_perm_reindex h fun k => ∑ j ∈ Finset.range n, F k j
  apply mul_left_cancel₀ (two_ne_zero (α := ℚ))
  rw [← h1, ← h2]
  exact h3

/-- Unfolding of the symmetry test. -/
lemma symB_spec {dm : List (List ℚ)} (h : symB dm = true) :
    ∀ i < dm.length, ∀ j < dm.length, ent dm i j = ent dm j i := by
  simpa [symB] using h

/-- Unfolding of the zero-diagonal test. -/
lemma zeroDiagB_spec {dm : List (List ℚ)} (h : zeroDiagB dm = true) :
    ∀ i < dm.length, ent dm i i = 0 := by
  simpa [zeroDiagB] using h

/-- The permuted matrix has one row per table entry. -/
lemma permMat_length (p : List ℕ) (dm : List (List ℚ)) :
    (permMat p dm).length = p.length :=
  List.length_map _ _

/-- Entries of the permuted matrix are entries of the original matrix at
permuted positions. -/
lemma ent_permMat (p : List ℕ) (dm : List (List ℚ)) {i j : ℕ}
    (hi : i < p.length) (hj : j < p.length) :
    ent (permMat p dm) i j = ent dm (p.getD i 0) (p.getD j 0) := by
  unfold ent permMat
  rw [List.getD_eq_getElem p 0 hi, List.getD_eq_getElem p 0 hj,
    List.getD_eq_getElem _ [] (by simpa using hi), List.getElem_map,
    List.getD_eq_getElem _ 0 (by simpa using hj), List.getElem_map]
  rfl

/-- Lookup in a shuffled list is lookup in the original at the permuted
position. -/
lemma applyPerm_getElem {α : Type} [Inhabited α] {p : List ℕ} {n : ℕ}
    (hp : p.Perm (List.range n)) (l : List α) (hl : l.length = n) {i : ℕ} (hi : i < n) :
    (applyPerm p l)[i]? = l[p.getD i 0]? := by
  have hplen := perm_length hp
  have hi' : i < p.length := by omega
  have hk : p.getD i 0 < l.length := by
    rw [hl]
    exact perm_getD_lt hp hi
  have h1 : l[p.getD i 0]? = some (l.getD (p.getD i 0) default) := by
    rw [List.getElem?_eq_getElem hk]
    congr 1
    exact (List.getD_eq_getElem l default hk).symm
  unfold applyPerm
  rw [List.getElem?_eq_getElem (by simpa using hi'), List.getElem_map, h1,
    List.getD_eq_getElem p 0 hi']

/-- Transport of the same-label predicate along a shuffle. -/
lemma lvlEq_applyPerm {α : Type} [DecidableEq α] [Inhabited α] {p : List ℕ} {n : ℕ}
    (hp : p.Perm (List.range n)) (l : List α) (hl : l.length = n) {i j : ℕ}
    (hi : i < n) (hj : j < n) :
    lvlEq (applyPerm p l) i j = lvlEq l (p.getD i 0) (p.getD j 0) := by
  unfold lvlEq
  rw [applyPerm_getElem hp l hl hi, applyPerm_getElem hp l hl hj]

/-- Transport of the same-A-label predicate along a shuffle. -/
lemma fstEq_applyPerm {α β : Type} [DecidableEq α] [Inhabited α] [Inhabited β]
    {p : List ℕ} {n : ℕ}
    (hp : p.Perm (List.range n)) (l : List (α × β)) (hl : l.length = n) {i j : ℕ}
    (hi : i < n) (hj : j < n) :
    fstEq (applyPerm p l) i j = fstEq l (p.getD i 0) (p.getD j 0) := by
  unfold fstEq
  rw [applyPerm_getElem hp l hl hi, applyPerm_getElem hp l hl hj]

/-- Transport of the same-B-label predicate along a shuffle. -/
lemma sndEq_applyPerm {α β : Type} [DecidableEq β] [Inhabited α] [Inhabited β]
    {p : List ℕ} {n : ℕ}
    (hp : p.Perm (List.range n)) (l : List (α × β)) (hl : l.length = n) {i j : ℕ}
    (hi : i < n) (hj : j < n) :
    sndEq (applyPerm p l) i j = sndEq l (p.getD i 0) (p.getD j 0) := by
  unfold sndEq
  rw [applyPerm_getElem hp l hl hi, applyPerm_getElem hp l hl hj]

/-- Indexing `range n` back into a list of length `n` reproduces the list. -/
lemma range_map_getD {α : Type} [Inhabited α] (l : List α) {n : ℕ} (hl : l.length = n) :
    (List.range n).map (fun k => l.getD k default) = l := by
  apply List.ext_getElem
  · simp [hl]
  · intro i h1 h2
    simp only [List.getElem_map, List.getElem_range]
    rw [List.getD_eq_getElem l default h2]

/-- A genuine shuffle produces a permutation of the original list. -/
lemma applyPerm_perm {α : Type} [Inhabited α] {p : List ℕ} {n : ℕ}
    (hp : p.Perm (List.range n)) (l : List α) (hl : l.length = n) :
    (applyPerm p l).Perm l := by
  have h := hp.map fun k => l.getD k default
  rw [range_map_getD l hl] at h
  exact h

/-- A genuine shuffle does not change the number of distinct labels. -/
lemma applyPerm_dedup_length {α : Type} [DecidableEq α] [Inhabited α] {p : List ℕ} {n : ℕ}
    (hp : p.Perm (List.range n)) (l : List α) (hl : l.length = n) :
    (applyPerm p l).dedup.length = l.dedup.length :=
  ((applyPerm_perm hp l hl).dedup).length_eq

/-- Shuffling commutes with projecting the A-labels. -/
lemma applyPerm_map_fst {α β : Type} [Inhabited α] [Inhabited β]
    (p : List ℕ) (lv : List (α × β)) :
    (applyPerm p lv).map Prod.fst = applyPerm p (lv.map Prod.fst) := by
  unfold applyPerm
  rw [List.map_map]
  refine List.map_congr_left fun k _ => ?_
  exact (List.getD_map lv default Prod.fst).symm

/-- Shuffling commutes with projecting the B-labels. -/
lemma applyPerm_map_snd {α β : Type} [Inhabited α] [Inhabited β]
    (p : List ℕ) (lv : List (α × β)) :
    (applyPerm p lv).map Prod.snd = applyPerm p (lv.map Prod.snd) := by
  unfold applyPerm
  rw [List.map_map]
  refine List.map_congr_left fun k _ => ?_
  exact (List.getD_map lv default Prod.snd).symm

/-- A genuine shuffle does not change the number of distinct A-labels. -/
lemma aCount_applyPerm {α β : Type} [DecidableEq α] [Inhabited α] [Inhabited β]
    {p : List ℕ} {n : ℕ} (hp : p.Perm (List.range n)) (lv : List (α × β))
    (hl : lv.length = n) :
    aCount (applyPerm p lv) = aCount lv := by
  unfold aCount
  rw [applyPerm_map_fst]
  exact ((applyPerm_perm hp (lv.map Prod.fst) (by simpa using hl)).dedup).length_eq

/-- A genuine shuffle does not change the number of distinct B-labels. -/
lemma bCount_applyPerm {α β : Type} [DecidableEq β] [Inhabited α] [Inhabited β]
    {p : List ℕ} {n : ℕ} (hp : p.Perm (List.range n)) (lv : List (α × β))
    (hl : lv.length = n) :
    bCount (applyPerm p lv) = bCount lv := by
  unfold bCount
  rw [applyPerm_map_snd]
  exact ((applyPerm_perm hp (lv.map Prod.snd) (by simpa using hl)).dedup).length_eq

/-- The key kernel fact: simultaneously permuting matrix rows/columns and
the pair predicate leaves any filtered upper-triangle sum unchanged, for a
symmetric zero-diagonal matrix and a symmetric predicate. -/
lemma sumUT_permMat {dm : List (List ℚ)} {p : List ℕ}
    (hp : p.Perm (List.range dm.length))
    (hsym : symB dm = true) (hdiag : zeroDiagB dm = true)
    {q q' : ℕ → ℕ → Bool}
    (hq : ∀ i < dm.length, ∀ j < dm.length, q' i j = q (p.getD i 0) (p.getD j 0))
    (hqsym : ∀ i < dm.length, ∀ j < dm.length, q i j = q j i) :
    sumUT (permMat p dm) q' = sumUT dm q := by
  have hplen := perm_length hp
  have hsym' := symB_spec hsym
  have hdiag' := zeroDiagB_spec hdiag
  have hlenp : (permMat p dm).length = dm.length := by
    rw [permMat_length, hplen]
  unfold sumUT
  rw [hlenp]
  calc ∑ i ∈ Finset.range dm.length, ∑ j ∈ Finset.Ico (i + 1) dm.length,
        (if q' i j then ent (permMat p dm) i j ^ 2 else 0)
      = ∑ i ∈ Finset.range dm.length, ∑ j ∈ Finset.Ico (i + 1) dm.length,
          (if q (p.getD i 0) (p.getD j 0) then
            ent dm (p.getD i 0) (p.getD j 0) ^ 2 else 0) := by
        refine Finset.sum_congr rfl fun i hi => Finset.sum_congr rfl fun j hj => ?_
        rw [Finset.mem_range] at hi
        rw [Finset.mem_Ico] at hj
        rw [hq i hi j hj.2, ent_permMat p dm (by omega) (by omega)]
    _ = ∑ i ∈ Finset.range dm.length, ∑ j ∈ Finset.Ico (i + 1) dm.length,
          (if q i j then ent dm i j ^ 2 else 0) := by
        refine sumTri_perm hp (fun i j => if q i j then ent dm i j ^ 2 else 0) ?_ ?_
        · intro i hi
          cases q i i <;> simp [hdiag' i hi]
        · intro i hi j hj
          simp only []
          rw [hqsym i hi j hj, hsym' i hi j hj]

/-- The shuffle result has the length of the position table. -/
lemma applyPerm_length {α : Type} [Inhabited α] (p : List ℕ) (l : List α) :
    (applyPerm p l).length = p.length :=
  List.length_map _ _

/-- The one-way trial loop succeeds on genuine shuffles of an assignment
with a repeated label, returning the starting count plus the number of
trial statistics at least `bigf`. -/
lemma onewayLoop_eq_count {α : Type} [DecidableEq α] [Inhabited α]
    (dm : List (List ℚ)) (bigf : ℚ) (levels0 : List α)
    (hsha : shapeOK dm levels0.length = true)
    (hded : levels0.dedup.length ≠ levels0.length) :
    ∀ (draws : List (List ℕ)) (cur : List α) (above : ℕ),
      (∀ p ∈ draws, p.Perm (List.range levels0.length)) →
      cur.Perm levels0 →
      onewayLoop dm bigf draws cur above =
        .ok (above + (shuffleStates draws cur).countP
              fun s => decide (bigf ≤ fOnewayCore dm s)) := by
  intro draws
  induction draws with
  | nil => intro cur above _ _; simp [onewayLoop, shuffleStates]
  | cons p ps ih =>
    intro cur above hp hcur
    have hpp : p.Perm (List.range levels0.length) := hp p (by simp)
    have hperm : (applyPerm p cur).Perm levels0 :=
      (applyPerm_perm hpp cur hcur.length_eq).trans hcur
    have hlen : (applyPerm p cur).length = levels0.length := hperm.length_eq
    have hded' : (applyPerm p cur).dedup.length ≠ (applyPerm p cur).length := by
      rw [hperm.dedup.length_eq, hlen]
      exact hded
    have hok : f_oneway dm (applyPerm p cur) = .ok (fOnewayCore dm (applyPerm p cur)) :=
      f_oneway_ok (by rw [hlen]; exact hsha) hded'
    simp only [onewayLoop, shuffleStates, hok]
    rw [ih _ _ (fun q hq => hp q (by simp [hq])) hperm]
    rw [List.countP_cons]
    by_cases hc : bigf ≤ fOnewayCore dm (applyPerm p cur) <;> simp [hc] <;> omega

/-- Claim C5: `permanova_oneway` computes the observed statistic on the
unpermuted levels, then shuffles one working copy once per trial and
recomputes; a trial is counted exactly when its statistic is `≥` the
observed one (ties count as above), and the pair `(F₀, count/P)` is
returned.  The hypotheses keep the run inside the returning regime: a
square matrix, some repeated label (with all labels distinct the observed
statistic itself raises `ZeroDivisionError`), and genuine shuffles. -/
theorem claim5_permanova_oneway_spec {α : Type} [DecidableEq α] [Inhabited α]
    (dm : List (List ℚ)) (levels : List α) (draws : List (List ℕ))
    (hsq : shapeOK dm levels.length = true)
    (hded : levels.dedup.length ≠ levels.length)
    (hP : 1 ≤ draws.length)
    (hdraws : ∀ p ∈ draws, p.Perm (List.range levels.length)) :
    permanova_oneway dm levels draws =
      .ok (fOnewayCore dm levels,
        (((shuffleStates draws levels).countP
            fun s => decide (fOnewayCore dm levels ≤ fOnewayCore dm s) : ℕ) : ℚ) /
          (draws.length : ℚ)) := by
  have h1 : f_oneway dm levels = .ok (fOnewayCore dm levels) := f_oneway_ok hsq hded
  have h2 := onewayLoop_eq_count dm (fOnewayCore dm levels) levels hsq hded
    draws levels 0 hdraws (List.Perm.refl levels)
  simp only [permanova_oneway, h1, h2, Nat.zero_add]
  rw [if_neg (by omega)]

/-- Witness for claim C5: a single non-identity shuffle on `dmX`. -/
theorem claim5_witness :
    permanova_oneway dmX lvX [[1, 0, 2, 3]] =
      .ok (fOnewayCore dmX lvX,
        (((shuffleStates [[1, 0, 2, 3]] lvX).countP
            fun s => decide (fOnewayCore dmX lvX ≤ fOnewayCore dmX s) : ℕ) : ℚ) /
          (([[1, 0, 2, 3]] : List (List ℕ)).length : ℚ)) :=
  claim5_permanova_oneway_spec dmX lvX [[1, 0, 2, 3]] (by decide) (by decide) (by decide)
    (by decide)

/-- The interaction trial loop succeeds on genuine joint shuffles of a
replicated full-size design and counts trials with statistic strictly
above `bigfI`. -/
lemma twowayLoopI_eq_count {α β : Type} [DecidableEq α] [DecidableEq β]
    [Inhabited α] [Inhabited β]
    (dm : List (List ℚ)) (bigfI : ℚ) (levels0 : List (α × β))
    (hlen : dm.length = levels0.length)
    (hsq : ∀ row ∈ dm, row.length = dm.length)
    (h2 : 2 ≤ levels0.length)
    (hab : levels0.length ≠ aCount levels0 * bCount levels0) :
    ∀ (draws : List (List ℕ)) (cur : List (α × β)) (above : ℕ),
      (∀ p ∈ draws, p.Perm (List.range levels0.length)) →
      cur.Perm levels0 →
      twowayLoopI dm bigfI draws cur above =
        .ok (above + (shuffleStates draws cur).countP
              fun s => decide (bigfI < (fTwowayCore dm s).1)) := by
  intro draws
  induction draws with
  | nil => intro cur above _ _; simp [twowayLoopI, shuffleStates]
  | cons p ps ih =>
    intro cur above hp hcur
    have hpp : p.Perm (List.range levels0.length) := hp p (by simp)
    have hperm : (applyPerm p cur).Perm levels0 :=
      (applyPerm_perm hpp cur hcur.length_eq).trans hcur
    have hlen' : (applyPerm p cur).length = levels0.length := hperm.length_eq
    have haC : aCount (applyPerm p cur) = aCount levels0 :=
      ((hperm.map Prod.fst).dedup).length_eq
    have hbC : bCount (applyPerm p cur) = bCount levels0 :=
      ((hperm.map Prod.snd).dedup).length_eq
    have hok : f_twoway dm (applyPerm p cur) =
        .ok (fTwowayCore dm (applyPerm p cur)) := by
      refine f_twoway_ok_sq (by omega) hsq (by omega) ?_
      rw [hlen', haC, hbC]
      exact hab
    simp only [twowayLoopI, shuffleStates, hok]
    rw [ih _ _ (fun q hq => hp q (by simp [hq])) hperm]
    rw [List.countP_cons]
    by_cases hc : bigfI < (fTwowayCore dm (applyPerm p cur)).1 <;> simp [hc] <;> omega

/-- The factor-A trial loop: only the A-labels are shuffled, each trial is
zipped with the fixed B-labels, and trials strictly above `bigfA` are
counted. -/
lemma twowayLoopA_eq_count {α β : Type} [DecidableEq α] [DecidableEq β]
    [Inhabited α] [Inhabited β]
    (dm : List (List ℚ)) (bigfA : ℚ) (bFixed : List β) (aOrig : List α)
    (hlen : dm.length = aOrig.length)
    (hbf : bFixed.length = aOrig.length)
    (hsq : ∀ row ∈ dm, row.length = dm.length)
    (h2 : 2 ≤ aOrig.length)
    (hab : aOrig.length ≠ aOrig.dedup.length * bFixed.dedup.length) :
    ∀ (draws : List (List ℕ)) (curA : List α) (above : ℕ),
      (∀ p ∈ draws, p.Perm (List.range aOrig.length)) →
      curA.Perm aOrig →
      twowayLoopA dm bigfA bFixed draws curA above =
        .ok (above + (shuffleStates draws curA).countP
              fun sa => decide (bigfA < (fTwowayCore dm (sa.zip bFixed)).2.1)) := by
  intro draws
  induction draws with
  | nil => intro curA above _ _; simp [twowayLoopA, shuffleStates]
  | cons p ps ih =>
    intro curA above hp hcur
    have hpp : p.Perm (List.range aOrig.length) := hp p (by simp)
    have hperm : (applyPerm p curA).Perm aOrig :=
      (applyPerm_perm hpp curA hcur.length_eq).trans hcur
    have hlenA : (applyPerm p curA).length = aOrig.length := hperm.length_eq
    have hzlen : ((applyPerm p curA).zip bFixed).length = aOrig.length := by
      rw [List.length_zip, hlenA, hbf]
      omega
    have hfst : ((applyPerm p curA).zip bFixed).map Prod.fst = applyPerm p curA :=
      List.map_fst_zip _ _ (by omega)
    have hsnd : ((applyPerm p curA).zip bFixed).map Prod.snd = bFixed :=
      List.map_snd_zip _ _ (by omega)
    have haC : aCount ((applyPerm p curA).zip bFixed) = aOrig.dedup.length := by
      unfold aCount
      rw [hfst]
      exact hperm.dedup.length_eq
    have hbC : bCount ((applyPerm p curA).zip bFixed) = bFixed.dedup.length := by
      unfold bCount
      rw [hsnd]
    have hok : f_twoway dm ((applyPerm p curA).zip bFixed) =
        .ok (fTwowayCore dm ((applyPerm p curA).zip bFixed)) := by
      refine f_twoway_ok_sq (by omega) hsq (by omega) ?_
      rw [hzlen, haC, hbC]
      exact hab
    simp only [twowayLoopA, shuffleStates, hok]
    rw [ih _ _ (fun q hq => hp q (by simp [hq])) hperm]
    rw [List.countP_cons]
    by_cases hc : bigfA < (fTwowayCore dm ((applyPerm p curA).zip bFixed)).2.1 <;>
      simp [hc] <;> omega

/-- The factor-B trial loop: only the B-labels are shuffled, zipped after
the fixed A-labels, and trials strictly above `bigfB` are counted. -/
lemma twowayLoopB_eq_count {α β : Type} [DecidableEq α] [DecidableEq β]
    [Inhabited α] [Inhabited β]
    (dm : List (List ℚ)) (bigfB : ℚ) (aFixed : List α) (bOrig : List β)
    (hlen : dm.length = bOrig.length)
    (haf : aFixed.length = bOrig.length)
    (hsq : ∀ row ∈ dm, row.length = dm.length)
    (h2 : 2 ≤ bOrig.length)
    (hab : bOrig.length ≠ aFixed.dedup.length * bOrig.dedup.length) :
    ∀ (draws : List (List ℕ)) (curB : List β) (above : ℕ),
      (∀ p ∈ draws, p.Perm (List.range bOrig.length)) →
      curB.Perm bOrig →
      twowayLoopB dm bigfB aFixed draws curB above =
        .ok (above + (shuffleStates draws curB).countP
              fun sb => decide (bigfB < (fTwowayCore dm (aFixed.zip sb)).2.2)) := by
  intro draws
  induction draws with
  | nil => intro curB above _ _; simp [twowayLoopB, shuffleStates]
  | cons p ps ih =>
    intro curB above hp hcur
    have hpp : p.Perm (List.range bOrig.length) := hp p (by simp)
    have hperm : (applyPerm p curB).Perm bOrig :=
      (applyPerm_perm hpp curB hcur.length_eq).trans hcur
    have hlenB : (applyPerm p curB).length = bOrig.length := hperm.length_eq
    have hzlen : (aFixed.zip (applyPerm p curB)).length = bOrig.length := by
      rw [List.length_zip, hlenB, haf]
      omega
    have hfst : (aFixed.zip (applyPerm p curB)).map Prod.fst = aFixed :=
      List.map_fst_zip _ _ (by omega)
    have hsnd : (aFixed.zip (applyPerm p curB)).map Prod.snd = applyPerm p curB :=
      List.map_snd_zip _ _ (by omega)
    have haC : aCount (aFixed.zip (applyPerm p curB)) = aFixed.dedup.length := by
      unfold aCount
      rw [hfst]
    have hbC : bCount (aFixed.zip (applyPerm p curB)) = bOrig.dedup.length := by
      unfold bCount
      rw [hsnd]
      exact hperm.dedup.length_eq
    have hok : f_twoway dm (aFixed.zip (applyPerm p curB)) =
        .ok (fTwowayCore dm (aFixed.zip (applyPerm p curB))) := by
      refine f_twoway_ok_sq (by omega) hsq (by omega) ?_
      rw [hzlen, haC, hbC]
      exact hab
    simp only [twowayLoopB, shuffleStates, hok]
    rw [ih _ _ (fun q hq => hp q (by simp [hq])) hperm]
    rw [List.countP_cons]
    by_cases hc : bigfB < (fTwowayCore dm (aFixed.zip (applyPerm p curB))).2.2 <;>
      simp [hc] <;> omega

/-- Full characterization of `permanova_twoway` on a full-size square matrix
and a replicated design under genuine shuffles: each of the three p-values
is its own loop's strict-majorization count over its own draw sequence,
divided by its own trial count. -/
lemma permanova_twoway_eq {α β : Type} [DecidableEq α] [DecidableEq β]
    [Inhabited α] [Inhabited β]
    (dm : List (List ℚ)) (levels : List (α × β)) (dI dA dB : List (List ℕ))
    (hlen : dm.length = levels.length)
    (hsq : ∀ row ∈ dm, row.length = dm.length)
    (h2 : 2 ≤ levels.length)
    (hab : levels.length ≠ aCount levels * bCount levels)
    (hPI : 1 ≤ dI.length) (hPA : 1 ≤ dA.length) (hPB : 1 ≤ dB.length)
    (hI : ∀ p ∈ dI, p.Perm (List.range levels.length))
    (hA : ∀ p ∈ dA, p.Perm (List.range levels.length))
    (hB : ∀ p ∈ dB, p.Perm (List.range levels.length)) :
    permanova_twoway dm levels dI dA dB = .ok
      ((((shuffleStates dI levels).countP
          fun s => decide ((fTwowayCore dm levels).1 < (fTwowayCore dm s).1) : ℕ) : ℚ) /
        (dI.length : ℚ),
       (((shuffleStates dA (levels.map Prod.fst)).countP
          fun sa => decide ((fTwowayCore dm levels).2.1 <
            (fTwowayCore dm (sa.zip (levels.map Prod.snd))).2.1) : ℕ) : ℚ) /
        (dA.length : ℚ),
       (((shuffleStates dB (levels.map Prod.snd)).countP
          fun sb => decide ((fTwowayCore dm levels).2.2 <
            (fTwowayCore dm ((levels.map Prod.fst).zip sb)).2.2) : ℕ) : ℚ) /
        (dB.length : ℚ)) := by
  have h0 : f_twoway dm levels = .ok (fTwowayCore dm levels) :=
    f_twoway_ok_sq hlen hsq h2 hab
  have h1 := twowayLoopI_eq_count dm (fTwowayCore dm levels).1 levels hlen hsq h2 hab
    dI levels 0 hI (List.Perm.refl levels)
  have hA' : ∀ p ∈ dA, p.Perm (List.range (levels.map Prod.fst).length) := by
    intro p hp
    rw [List.length_map]
    exact hA p hp
  have hB' : ∀ p ∈ dB, p.Perm (List.range (levels.map Prod.snd).length) := by
    intro p hp
    rw [List.length_map]
    exact hB p hp
  have h2' := twowayLoopA_eq_count dm (fTwowayCore dm levels).2.1
    (levels.map Prod.snd) (levels.map Prod.fst)
    (by rw [List.length_map]; exact hlen)
    (by rw [List.length_map, List.length_map])
    hsq
    (by rw [List.length_map]; exact h2)
    (by rw [List.length_map]; exact hab)
    dA (levels.map Prod.fst) 0 hA' (List.Perm.refl _)
  have h3 := twowayLoopB_eq_count dm (fTwowayCore dm levels).2.2
    (levels.map Prod.fst) (levels.map Prod.snd)
    (by rw [List.length_map]; exact hlen)
    (by rw [List.length_map, List.length_map])
    hsq
    (by rw [List.length_map]; exact h2)
    (by rw [List.length_map]; exact hab)
    dB (levels.map Prod.snd) 0 hB' (List.Perm.refl _)
  simp only [permanova_twoway, h0, h1, h2', h3, Nat.zero_add]
  rw [if_neg (by rintro (h0 | h0 | h0) <;> omega)]

/-- Claim C3 (amended): in `permanova_twoway`'s interaction test the full
`(A,B)` pair list is shuffled jointly on each trial, and a trial is counted
toward the interaction p-value exactly when its interaction F statistic is
STRICTLY greater than the observed one (ties are not counted; the source
compares all three two-way tests with `>`).  The hypotheses keep the run
inside the returning regime: full-size square matrix, a design that is not
one observation per cell, and genuine shuffles. -/
theorem claim3_amended_strict_interaction {α β : Type} [DecidableEq α] [DecidableEq β]
    [Inhabited α] [Inhabited β]
    (dm : List (List ℚ)) (levels : List (α × β)) (dI dA dB : List (List ℕ))
    (hlen : dm.length = levels.length)
    (hsq : ∀ row ∈ dm, row.length = dm.length)
    (h2 : 2 ≤ levels.length)
    (hab : levels.length ≠ aCount levels * bCount levels)
    (hPI : 1 ≤ dI.length) (hPA : 1 ≤ dA.length) (hPB : 1 ≤ dB.length)
    (hI : ∀ p ∈ dI, p.Perm (List.range levels.length))
    (hA : ∀ p ∈ dA, p.Perm (List.range levels.length))
    (hB : ∀ p ∈ dB, p.Perm (List.range levels.length)) :
    ∃ pa pb, permanova_twoway dm levels dI dA dB = .ok
      ((((shuffleStates dI levels).countP
          fun s => decide ((fTwowayCore dm levels).1 < (fTwowayCore dm s).1) : ℕ) : ℚ) /
        (dI.length : ℚ), pa, pb) :=
  ⟨_, _, permanova_twoway_eq dm levels dI dA dB hlen hsq h2 hab hPI hPA hPB hI hA hB⟩

/-- Witness for claim C3 (amended) at a concrete replicated input. -/
theorem claim3_witness :
    ∃ pa pb, permanova_twoway dmE lvE [idEight] [idEight] [idEight] = .ok
      ((((shuffleStates [idEight] lvE).countP
          fun s => decide ((fTwowayCore dmE lvE).1 < (fTwowayCore dmE s).1) : ℕ) : ℚ) /
        (([idEight] : List (List ℕ)).length : ℚ), pa, pb) :=
  claim3_amended_strict_interaction dmE lvE [idEight] [idEight] [idEight]
    (by decide) (by decide) (by decide) (by decide) (by decide) (by decide) (by decide)
    (by decide) (by decide) (by decide)

/-- Claim C6: in `permanova_twoway`'s factor-A test only the A-labels are
shuffled (the B-labels stay fixed in original order), a trial is counted
only when its `F_A` is strictly greater than the observed `F_A`; the
factor-B test is symmetric, and each scheme consumes its own independent
sequence of draws.  The hypotheses keep the run inside the returning
regime: full-size square matrix, a design that is not one observation per
cell, and genuine shuffles. -/
theorem claim6_marginal_tests_spec {α β : Type} [DecidableEq α] [DecidableEq β]
    [Inhabited α] [Inhabited β]
    (dm : List (List ℚ)) (levels : List (α × β)) (dI dA dB : List (List ℕ))
    (hlen : dm.length = levels.length)
    (hsq : ∀ row ∈ dm, row.length = dm.length)
    (h2 : 2 ≤ levels.length)
    (hab : levels.length ≠ aCount levels * bCount levels)
    (hPI : 1 ≤ dI.length) (hPA : 1 ≤ dA.length) (hPB : 1 ≤ dB.length)
    (hI : ∀ p ∈ dI, p.Perm (List.range levels.length))
    (hA : ∀ p ∈ dA, p.Perm (List.range levels.length))
    (hB : ∀ p ∈ dB, p.Perm (List.range levels.length)) :
    ∃ pInt, permanova_twoway dm levels dI dA dB = .ok
      (pInt,
       (((shuffleStates dA (levels.map Prod.fst)).countP
          fun sa => decide ((fTwowayCore dm levels).2.1 <
            (fTwowayCore dm (sa.zip (levels.map Prod.snd))).2.1) : ℕ) : ℚ) /
        (dA.length : ℚ),
       (((shuffleStates dB (levels.map Prod.snd)).countP
          fun sb => decide ((fTwowayCore dm levels).2.2 <
            (fTwowayCore dm ((levels.map Prod.fst).zip sb)).2.2) : ℕ) : ℚ) /
        (dB.length : ℚ)) :=
  ⟨_, permanova_twoway_eq dm levels dI dA dB hlen hsq h2 hab hPI hPA hPB hI hA hB⟩

/-- Witness for claim C6 at a concrete replicated input. -/
theorem claim6_witness :
    ∃ pInt, permanova_twoway dmE lvE [idEight] [idEight] [idEight] = .ok
      (pInt,
       (((shuffleStates [idEight] (lvE.map Prod.fst)).countP
          fun sa => decide ((fTwowayCore dmE lvE).2.1 <
            (fTwowayCore dmE (sa.zip (lvE.map Prod.snd))).2.1) : ℕ) : ℚ) /
        (([idEight] : List (List ℕ)).length : ℚ),
       (((shuffleStates [idEight] (lvE.map Prod.snd)).countP
          fun sb => decide ((fTwowayCore dmE lvE).2.2 <
            (fTwowayCore dmE ((lvE.map Prod.fst).zip sb)).2.2) : ℕ) : ℚ) /
        (([idEight] : List (List ℕ)).length : ℚ)) :=
  claim6_marginal_tests_spec dmE lvE [idEight] [idEight] [idEight]
    (by decide) (by decide) (by decide) (by decide) (by decide) (by decide) (by decide)
    (by decide) (by decide) (by decide)

/-- Claim C8 (amended): applying one permutation simultaneously to the rows
and columns of a symmetric zero-diagonal square distance matrix and to the
level assignment leaves the F statistics unchanged, for `f_oneway` and all
three components of `f_twoway` (hence also the observed F of
`permanova_oneway`).  The claim's further consequence about p-values under
identical random draws fails, see the counterexample. -/
theorem claim8_amended_invariance
    (dm : List (List ℚ)) (p : List ℕ)
    (hp : p.Perm (List.range dm.length))
    (hsq : ∀ row ∈ dm, row.length = dm.length)
    (hsym : symB dm = true) (hdiag : zeroDiagB dm = true) :
    (∀ {α : Type} [DecidableEq α] [Inhabited α] (levels : List α),
        levels.length = dm.length →
        f_oneway (permMat p dm) (applyPerm p levels) = f_oneway dm levels) ∧
    (∀ {β γ : Type} [DecidableEq β] [DecidableEq γ] [Inhabited β] [Inhabited γ]
        (levels : List (β × γ)),
        levels.length = dm.length →
        f_twoway (permMat p dm) (applyPerm p levels) = f_twoway dm levels) := by
  have hplen := perm_length hp
  rcases Nat.eq_zero_or_pos dm.length with hn0 | hn0
  · have hdm : dm = [] := List.length_eq_zero.mp hn0
    have hpn : p = [] := List.length_eq_zero.mp (by omega)
    subst hdm
    subst hpn
    constructor
    · intro α _ _ levels hlev
      have hl : levels = [] := List.length_eq_zero.mp (by simpa using hlev)
      subst hl
      rfl
    · intro β γ _ _ _ _ levels hlev
      have hl : levels = [] := List.length_eq_zero.mp (by simpa using hlev)
      subst hl
      rfl
  · have hpmlen : (permMat p dm).length = dm.length := by
      rw [permMat_length, hplen]
    have hpmsq : ∀ row ∈ permMat p dm, row.length = (permMat p dm).length := by
      intro row hrow
      simp only [permMat, List.mem_map] at hrow
      obtain ⟨i, _, rfl⟩ := hrow
      rw [List.length_map, hpmlen, hplen]
    have hsAll : sumUT (permMat p dm) (fun _ _ => true) = sumUT dm fun _ _ => true :=
      sumUT_permMat hp hsym hdiag (fun _ _ _ _ => rfl) fun _ _ _ _ => rfl
    constructor
    · intro α _ _ levels hlev
      have hsq1 : shapeOK dm levels.length = true := by
        rw [hlev]
        exact shapeOK_iff.mpr ⟨by omega, rfl, hsq⟩
      have hlev' : (applyPerm p levels).length = levels.length := by
        rw [applyPerm_length, hplen, hlev]
      have hsq2 : shapeOK (permMat p dm) (applyPerm p levels).length = true := by
        rw [hlev', hlev]
        exact shapeOK_iff.mpr ⟨by omega, hpmlen,
          fun row hrow => by rw [hpmsq row hrow, hpmlen]⟩
      have hdedEq : (applyPerm p levels).dedup.length = levels.dedup.length :=
        applyPerm_dedup_length hp levels hlev
      by_cases hded : levels.dedup.length = levels.length
      · have hne1 : levels ≠ [] := List.length_pos.mp (by omega)
        have h01 : ¬levels.dedup.length = 0 := by
          have := dedup_length_pos hne1
          omega
        have h02 : ¬(applyPerm p levels).dedup.length = 0 := by
          rw [hdedEq]
          exact h01
        unfold f_oneway
        rw [if_neg h02, if_pos hsq2, if_pos (by rw [hdedEq, hlev']; exact hded),
          if_neg h01, if_pos hsq1, if_pos hded]
      · rw [f_oneway_ok hsq2 (by rw [hdedEq, hlev']; exact hded),
          f_oneway_ok hsq1 hded]
        congr 1
        have hs2 : sumUT (permMat p dm) (lvlEq (applyPerm p levels))
            = sumUT dm (lvlEq levels) :=
          sumUT_permMat hp hsym hdiag
            (fun i hi j hj => lvlEq_applyPerm hp levels hlev hi hj)
            (fun i _ j _ => by
              unfold lvlEq
              rw [decide_eq_decide]
              exact ⟨Eq.symm, Eq.symm⟩)
        simp only [fOnewayCore]
        rw [hlev', hdedEq, hsAll, hs2]
    · intro β γ _ _ _ _ levels hlev
      have hlev' : (applyPerm p levels).length = levels.length := by
        rw [applyPerm_length, hplen, hlev]
      have hpermL : (applyPerm p levels).Perm levels := applyPerm_perm hp levels hlev
      have haC := aCount_applyPerm hp levels hlev
      have hbC := bCount_applyPerm hp levels hlev
      have hsstB : sstEmptyB (permMat p dm) = sstEmptyB dm := by
        rw [sstEmptyB_square hpmsq, sstEmptyB_square hsq, hpmlen]
      have hmlen : (permMat p dm).length = (applyPerm p levels).length := by
        rw [hpmlen, hlev']
        exact hlev.symm
      have hnpL : noPairB (permMat p dm) (lvlEq (applyPerm p levels))
          = noPairB dm (lvlEq levels) :=
        bool_eq_of_iff (by
          rw [noPairB_lvlEq_iff hmlen, noPairB_lvlEq_iff hlev.symm]
          exact hpermL.nodup_iff)
      have hnpF : noPairB (permMat p dm) (fstEq (applyPerm p levels))
          = noPairB dm (fstEq levels) :=
        bool_eq_of_iff (by
          rw [noPairB_fstEq_iff hmlen, noPairB_fstEq_iff hlev.symm]
          exact (hpermL.map Prod.fst).nodup_iff)
      have hnpS : noPairB (permMat p dm) (sndEq (applyPerm p levels))
          = noPairB dm (sndEq levels) :=
        bool_eq_of_iff (by
          rw [noPairB_sndEq_iff hmlen, noPairB_sndEq_iff hlev.symm]
          exact (hpermL.map Prod.snd).nodup_iff)
      unfold f_twoway
      refine if_congr (by rw [haC, hbC]) rfl ?_
      refine if_congr (by rw [hpmlen, hlev']) rfl ?_
      refine if_congr (by rw [hsstB, hnpL, hnpF, hnpS, haC, hbC]) rfl ?_
      refine if_congr (by rw [hnpL, hlev', haC, hbC]) rfl ?_
      congr 1
      have hsPair : sumUT (permMat p dm) (lvlEq (applyPerm p levels))
          = sumUT dm (lvlEq levels) :=
        sumUT_permMat hp hsym hdiag
          (fun i hi j hj => lvlEq_applyPerm hp levels hlev hi hj)
          (fun i _ j _ => by
            unfold lvlEq
            rw [decide_eq_decide]
            exact ⟨Eq.symm, Eq.symm⟩)
      have hsFst : sumUT (permMat p dm) (fstEq (applyPerm p levels))
          = sumUT dm (fstEq levels) :=
        sumUT_permMat hp hsym hdiag
          (fun i hi j hj => fstEq_applyPerm hp levels hlev hi hj)
          (fun i _ j _ => by
            unfold fstEq
            rw [decide_eq_decide]
            exact ⟨Eq.symm, Eq.symm⟩)
      have hsSnd : sumUT (permMat p dm) (sndEq (applyPerm p levels))
          = sumUT dm (sndEq levels) :=
        sumUT_permMat hp hsym hdiag
          (fun i hi j hj => sndEq_applyPerm hp levels hlev hi hj)
          (fun i _ j _ => by
            unfold sndEq
            rw [decide_eq_decide]
            exact ⟨Eq.symm, Eq.symm⟩)
      have hrows : ssTotalRows (permMat p dm) = ssTotalRows dm := by
        rw [ssTotalRows_eq_sumUT hpmsq, ssTotalRows_eq_sumUT hsq, hsAll]
      simp only [fTwowayCore, ssabTW, ssaTW, ssbTW, ssrTW, sswaTW, sswbTW, sstTW, cellN]
      rw [hlev', haC, hbC, hrows, hsPair, hsFst, hsSnd]

/-- Witness for claim C8 (amended): the swap of two observations on
`dmTwo`. -/
theorem claim8_witness :
    f_oneway (permMat [1, 0] dmTwo) (applyPerm [1, 0] [0, 1]) =
      f_oneway dmTwo ([0, 1] : List ℕ) ∧
    f_twoway (permMat [1, 0] dmTwo) (applyPerm [1, 0] [((0 : ℕ), (0 : ℕ)), (1, 1)]) =
      f_twoway dmTwo [((0 : ℕ), (0 : ℕ)), (1, 1)] :=
  ⟨(claim8_amended_invariance dmTwo [1, 0] (by decide) (by decide)
      (of_decide_eq_true (by with_unfolding_all rfl))
      (of_decide_eq_true (by with_unfolding_all rfl))).1 [0, 1] (by decide),
   (claim8_amended_invariance dmTwo [1, 0] (by decide) (by decide)
      (of_decide_eq_true (by with_unfolding_all rfl))
      (of_decide_eq_true (by with_unfolding_all rfl))).2
     [((0 : ℕ), (0 : ℕ)), (1, 1)] (by decide)⟩

end Permanova
